import Mathlib

/-!
# BitArray: shallow embedding and verification

A shallow embedding of the BitArray C library (`bit_array.h`) in Lean 4.
The repository ships only the public header; every operation below is
therefore modelled from the header's documentation together with the
natural-language specification, at the level of detail those documents
give (word-packed storage, masking of the tail word, borrow propagation,
byte-level file format, nibble-level hex format).

## Data model

A `BIT_ARRAY` holds a logical bit length `num_of_bits` and the packed
contents of its `ceil(num_of_bits / 64)` 64-bit words, represented here
as the single natural number `data` whose binary digits are the stored
bits, bit `i` of the vector being bit `i` of `data` (bit `i` lives in
word `i / 64` at offset `i % 64`, LSB-first within each word).  The
*tail invariant* — all stored bits at index `≥ num_of_bits` are zero —
is the statement `data < 2 ^ num_of_bits`.
-/

/-- Modelled from the spec: the sole entity, a word-packed bit vector with a
logical bit length.  `data` packs the stored words LSB-first. -/
structure BIT_ARRAY where
  num_of_bits : Nat
  data : Nat
deriving DecidableEq, Repr

/-- Words are 64 bits wide (`word_t` is `uint64_t`). -/
def word_size : Nat := 64

/-- Number of 64-bit words needed for `b` bits: `ceil(b / 64)`. -/
def nwords (b : Nat) : Nat := (b + word_size - 1) / word_size

/-- All-ones mask of `n` bits. -/
def bitmask (n : Nat) : Nat := 2 ^ n - 1

/-- The tail invariant: every stored bit at index `num_of_bits` or beyond is
zero, i.e. the packed data is below `2 ^ num_of_bits`. -/
def tailInvariant (v : BIT_ARRAY) : Prop := v.data < 2 ^ v.num_of_bits

instance (v : BIT_ARRAY) : Decidable (tailInvariant v) := by
  unfold tailInvariant; infer_instance

/-- Modelled from the spec: `bit_array_create(nbits)` allocates a zeroed
vector of length `nbits`. -/
def bit_array_create (nbits : Nat) : BIT_ARRAY := ⟨nbits, 0⟩

/-- Modelled from the spec: `bit_array_length` returns the logical length. -/
def bit_array_length (v : BIT_ARRAY) : Nat := v.num_of_bits

/-- Modelled from the spec: `bit_array_get_bit(v, b)` returns bit `b`
(the C `char` result `0/1` is modelled as `Bool`). -/
def bit_array_get_bit (v : BIT_ARRAY) (b : Nat) : Bool := v.data.testBit b

/-- Bit `i` of a vector read as zero-extended beyond its own length: the
reading the spec prescribes for the shorter operand of `and/or/xor` and for
the comparisons. -/
def zeroExtBit (v : BIT_ARRAY) (i : Nat) : Bool :=
  decide (i < v.num_of_bits) && bit_array_get_bit v i

/-- The LSB-first numeric value of the vector: sum of `2 ^ i` over the set
bits `i < num_of_bits`. -/
def bitValue (v : BIT_ARRAY) : Nat :=
  ((List.range v.num_of_bits).filter (fun i => v.data.testBit i)).foldr
    (fun i acc => 2 ^ i + acc) 0

/-!
## Generic base-`B` chunking

The file format (bytes), the word-level arithmetic (64-bit words) and the
hex format (nibbles) all split the packed data into fixed-width chunks.
-/

/-- The `k` low base-`B` digits of `d`, least significant first. -/
def chunksOfNat (B : Nat) : Nat → Nat → List Nat
  | 0, _ => []
  | k + 1, d => d % B :: chunksOfNat B k (d / B)

/-- Reassemble base-`B` digits, least significant first. -/
def natOfChunks (B : Nat) : List Nat → Nat
  | [] => 0
  | c :: cs => c + B * natOfChunks B cs

theorem chunksOfNat_length (B k d : Nat) : (chunksOfNat B k d).length = k := by
  induction k generalizing d with
  | zero => rfl
  | succ k ih => simp [chunksOfNat, ih]

theorem chunksOfNat_lt (B k d : Nat) (hB : 0 < B) :
    ∀ c ∈ chunksOfNat B k d, c < B := by
  induction k generalizing d with
  | zero => intro c hc; simp [chunksOfNat] at hc
  | succ k ih =>
    intro c hc
    simp only [chunksOfNat, List.mem_cons] at hc
    rcases hc with h | h
    · exact h ▸ Nat.mod_lt _ hB
    · exact ih _ c h

theorem natOfChunks_chunksOfNat (B k d : Nat) (hd : d < B ^ k) :
    natOfChunks B (chunksOfNat B k d) = d := by
  induction k generalizing d with
  | zero => simp at hd; simp [hd, chunksOfNat, natOfChunks]
  | succ k ih =>
    have hB : 0 < B := by
      rcases Nat.eq_zero_or_pos B with h | h
      · subst h; simp at hd
      · exact h
    have hdiv : d / B < B ^ k := by
      rw [Nat.div_lt_iff_lt_mul hB]
      calc d < B ^ (k + 1) := hd
        _ = B ^ k * B := by ring
    simp only [chunksOfNat, natOfChunks, ih (d / B) hdiv]
    exact Nat.mod_add_div d B

theorem natOfChunks_lt (B : Nat) (cs : List Nat) (h : ∀ c ∈ cs, c < B) :
    natOfChunks B cs < B ^ cs.length := by
  induction cs with
  | nil => simp [natOfChunks]
  | cons c cs ih =>
    have hc : c < B := h c (by simp)
    have hcs : natOfChunks B cs < B ^ cs.length := ih (fun x hx => h x (by simp [hx]))
    simp only [natOfChunks, List.length_cons, pow_succ]
    have h3 : c + B * natOfChunks B cs < B * (natOfChunks B cs + 1) := by
      rw [Nat.mul_succ]; omega
    have h4 : B * (natOfChunks B cs + 1) ≤ B * B ^ cs.length :=
      Nat.mul_le_mul_left B hcs
    calc c + B * natOfChunks B cs < B * B ^ cs.length := lt_of_lt_of_le h3 h4
      _ = B ^ cs.length * B := Nat.mul_comm _ _

/-!
## Population count and friends
-/

/-- Fuel-driven halving loop behind `popcount`; structural recursion on the
fuel keeps it kernel-reducible. -/
def popcountFuel : Nat → Nat → Nat
  | 0, _ => 0
  | fuel + 1, n => if n = 0 then 0 else n % 2 + popcountFuel fuel (n / 2)

/-- Per-bit population count of a natural number: the number of set bits.
The C code computes this with per-word `popcount` summed across words; on the
packed data the result is the same. -/
def popcount (n : Nat) : Nat := popcountFuel n n

theorem popcountFuel_zero_arg (f : Nat) : popcountFuel f 0 = 0 := by
  cases f <;> simp [popcountFuel]

theorem popcountFuel_congr : ∀ f g n, n ≤ f → n ≤ g → popcountFuel f n = popcountFuel g n := by
  intro f
  induction f with
  | zero =>
    intro g n hf _
    have : n = 0 := by omega
    subst this
    rw [popcountFuel_zero_arg, popcountFuel_zero_arg]
  | succ f ih =>
    intro g n hf hg
    rcases eq_or_ne n 0 with h0 | h0
    · subst h0; rw [popcountFuel_zero_arg, popcountFuel_zero_arg]
    · rcases g with _ | g
      · omega
      · simp only [popcountFuel, h0, if_neg]
        have hd : n / 2 ≤ f := by omega
        have hd2 : n / 2 ≤ g := by omega
        rw [ih g (n / 2) hd hd2]

theorem popcount_zero : popcount 0 = 0 := rfl

theorem popcount_eq (n : Nat) (hn : n ≠ 0) :
    popcount n = n % 2 + popcount (n / 2) := by
  obtain ⟨m, rfl⟩ : ∃ m, n = m + 1 := ⟨n - 1, by omega⟩
  show popcountFuel (m + 1) (m + 1) = _
  simp only [popcountFuel, Nat.succ_ne_zero, if_neg]
  have : popcountFuel m ((m + 1) / 2) = popcount ((m + 1) / 2) :=
    popcountFuel_congr m ((m + 1) / 2) ((m + 1) / 2) (by omega) (le_refl _)
  rw [this]
  simp

/-- The recurrence holds for every `n` (at `0` both sides are `0`). -/
theorem popcount_rec (n : Nat) : popcount n = n % 2 + popcount (n / 2) := by
  rcases eq_or_ne n 0 with h | h
  · simp [h, popcount_zero]
  · exact popcount_eq n h

/-- Modelled from the spec: `bit_array_num_bits_set` is the hamming weight of
the stored (tail-zeroed) data. -/
def bit_array_num_bits_set (v : BIT_ARRAY) : Nat := popcount v.data

/-- Modelled from the spec: `bit_array_parity` returns 1 iff an odd number of
bits is set. -/
def bit_array_parity (v : BIT_ARRAY) : Nat := popcount v.data % 2

/-- Modelled from the spec: `bit_array_num_bits_cleared` counts the indices
`i < num_of_bits` whose bit is clear. -/
def bit_array_num_bits_cleared (v : BIT_ARRAY) : Nat :=
  ((List.range v.num_of_bits).filter (fun i => ! v.data.testBit i)).length

/-- Modelled from the spec: `bit_array_find_first_set_bit` scans from the low
end; the C found-flag plus out-parameter pair is modelled as `Option`. -/
def bit_array_find_first_set_bit (v : BIT_ARRAY) : Option Nat :=
  (List.range v.num_of_bits).find? (fun i => v.data.testBit i)

/-- Modelled from the spec: `bit_array_find_last_set_bit` scans from the high
end; the C found-flag plus out-parameter pair is modelled as `Option`. -/
def bit_array_find_last_set_bit (v : BIT_ARRAY) : Option Nat :=
  (List.range v.num_of_bits).reverse.find? (fun i => v.data.testBit i)

/-- Modelled from the spec: `bit_array_cmp` compares the two vectors' stored
values with bit 0 least significant (shorter operand zero-extended),
returning 1 / 0 / -1. -/
def bit_array_cmp (a b : BIT_ARRAY) : Int :=
  if bitValue a < bitValue b then -1
  else if bitValue b < bitValue a then 1
  else 0

/-!
## Lexicographic (MSB-first) comparison
-/

/-- Compare bits `i, i+1, ...` (`rem` of them) of `a` and `b` left-to-right,
each operand read as zero-extended beyond its own length; the first index
where the bits differ decides. -/
def lexCmpFrom (a b : BIT_ARRAY) : Nat → Nat → Int
  | _, 0 => 0
  | i, rem + 1 =>
    if zeroExtBit a i = zeroExtBit b i then lexCmpFrom a b (i + 1) rem
    else if zeroExtBit a i then 1 else -1

/-- Modelled from the spec: `bit_array_other_endian_cmp` compares with bit 0
most significant, lexicographically left-to-right over the longer length,
the shorter operand zero-padded. -/
def bit_array_other_endian_cmp (a b : BIT_ARRAY) : Int :=
  lexCmpFrom a b 0 (max a.num_of_bits b.num_of_bits)

/-!
## Logic operations, complement, shift, random fill
-/

/-- Modelled from the spec: `bit_array_and(dest, src1, src2)` resizes `dest`
to the longer source length and computes the bitwise AND of the packed data
(the shorter source reads as zero-extended). -/
def bit_array_and (src1 src2 : BIT_ARRAY) : BIT_ARRAY :=
  ⟨max src1.num_of_bits src2.num_of_bits, src1.data &&& src2.data⟩

/-- Modelled from the spec: `bit_array_or(dest, src1, src2)`. -/
def bit_array_or (src1 src2 : BIT_ARRAY) : BIT_ARRAY :=
  ⟨max src1.num_of_bits src2.num_of_bits, src1.data ||| src2.data⟩

/-- Modelled from the spec: `bit_array_xor(dest, src1, src2)`. -/
def bit_array_xor (src1 src2 : BIT_ARRAY) : BIT_ARRAY :=
  ⟨max src1.num_of_bits src2.num_of_bits, src1.data ^^^ src2.data⟩

/-- Modelled from the spec: `bit_array_toggle_all` complements every bit of
every allocated word (producing junk in the tail of the last word) and then
re-zeroes the tail, as the tail invariant demands. -/
def bit_array_toggle_all (v : BIT_ARRAY) : BIT_ARRAY :=
  ⟨v.num_of_bits,
   (v.data ^^^ bitmask (word_size * nwords v.num_of_bits)) &&& bitmask v.num_of_bits⟩

/-- Modelled from the spec: `bit_array_not(dest, src)` resizes `dest` to
`src`'s length and stores the complement of `src`, tail re-zeroed. -/
def bit_array_not (src : BIT_ARRAY) : BIT_ARRAY :=
  ⟨src.num_of_bits,
   (src.data ^^^ bitmask (word_size * nwords src.num_of_bits)) &&& bitmask src.num_of_bits⟩

/-- Modelled from the spec: `bit_array_shift_left(v, dist, fill)` moves bit
`i` to index `i + dist` within the unchanged length, discards bits pushed past
the end (the final mask), and fills the vacated low positions with the fill
bit. -/
def bit_array_shift_left (v : BIT_ARRAY) (shift_dist : Nat) (fill : Bool) : BIT_ARRAY :=
  ⟨v.num_of_bits,
   ((v.data <<< shift_dist) ||| (if fill then bitmask shift_dist else 0)) &&&
     bitmask v.num_of_bits⟩

/-- Modelled from the spec: `bit_array_random(v, prob)` fills every allocated
word with random bits and re-zeroes the tail.  The random stream is modelled
as an arbitrary natural number `r` supplying the raw word contents. -/
def bit_array_random (v : BIT_ARRAY) (r : Nat) : BIT_ARRAY :=
  ⟨v.num_of_bits, r &&& bitmask v.num_of_bits⟩

/-!
## Word-level subtraction with borrow propagation
-/

/-- Modelled from the spec: subtract `value` from a little-endian list of
64-bit words, propagating the borrow into higher words; `none` when the
words' value is smaller than `value` (nothing left to borrow from). -/
def subtractWords : List Nat → Nat → Option (List Nat)
  | [], value => if value = 0 then some [] else none
  | w :: ws, value =>
    if value ≤ w then some ((w - value) :: ws)
    else
      match subtractWords ws 1 with
      | some ws2 => some ((w + 2 ^ word_size - value) :: ws2)
      | none => none

/-- Modelled from the spec: `bit_array_subtract(bitarr, value)` subtracts a
machine-word value with borrow propagation across the allocated words; on
underflow it returns 0 with the vector unchanged, otherwise 1 and the
updated vector.  The C `char` result is the first component. -/
def bit_array_subtract (bitarr : BIT_ARRAY) (value : Nat) : Nat × BIT_ARRAY :=
  match subtractWords (chunksOfNat (2 ^ word_size) (nwords bitarr.num_of_bits) bitarr.data) value with
  | some ws => (1, ⟨bitarr.num_of_bits, natOfChunks (2 ^ word_size) ws⟩)
  | none => (0, bitarr)

/-!
## Interleave
-/

/-- Interleave the `n` low bits of `a` and `b`: bit `2k` of the result is bit
`k` of `a`, bit `2k+1` is bit `k` of `b`. -/
def interleaveBits : Nat → Nat → Nat → Nat
  | 0, _, _ => 0
  | n + 1, a, b => a % 2 + 2 * (b % 2) + 4 * interleaveBits n (a / 2) (b / 2)

/-- Modelled from the spec: `bit_array_interleave(dst, src1, src2)` requires
equal source lengths and a destination aliasing neither source; the fresh
destination has twice the length, bits of `src1` at even indices and bits of
`src2` at odd indices. -/
def bit_array_interleave (src1 src2 : BIT_ARRAY) : BIT_ARRAY :=
  ⟨2 * src1.num_of_bits, interleaveBits src1.num_of_bits src1.data src2.data⟩

/-!
## Next lexicographic permutation
-/

/-- Modelled from the spec: `bit_array_next_permutation` steps to the next
arrangement, in increasing LSB-first numeric order, of the same length and
population count; after the maximum arrangement it wraps to the minimum
(all set bits at the low indices, value `2 ^ k - 1`). -/
def bit_array_next_permutation (v : BIT_ARRAY) : BIT_ARRAY :=
  match (List.range (2 ^ v.num_of_bits)).find?
      (fun w => popcount w == popcount v.data && v.data < w) with
  | some w => ⟨v.num_of_bits, w⟩
  | none => ⟨v.num_of_bits, 2 ^ popcount v.data - 1⟩

/-!
## Binary file save / load
-/

/-- Modelled from the spec: `bit_array_save` writes an 8-byte header holding
`num_of_bits` (little-endian, as stored in memory) followed by
`ceil(num_of_bits / 8)` packed data bytes. -/
def bit_array_save (v : BIT_ARRAY) : List Nat :=
  chunksOfNat 256 8 v.num_of_bits ++ chunksOfNat 256 ((v.num_of_bits + 7) / 8) v.data

/-- Modelled from the spec: `bit_array_load` reads the 8-byte bit-length
header, then the data bytes; it fails on a truncated stream and re-zeroes
the tail bits of the last byte, as the tail invariant demands. -/
def bit_array_load (bytes : List Nat) : Option BIT_ARRAY :=
  if bytes.length < 8 then none
  else if bytes.length - 8 < (natOfChunks 256 (bytes.take 8) + 7) / 8 then none
  else some ⟨natOfChunks 256 (bytes.take 8),
    natOfChunks 256 ((bytes.drop 8).take ((natOfChunks 256 (bytes.take 8) + 7) / 8)) &&&
      bitmask (natOfChunks 256 (bytes.take 8))⟩

/-!
## Hexadecimal encode / decode
-/

/-- Hex digit character for a nibble value, upper- or lower-case. -/
def nibbleToChar (uppercase : Bool) (u : Nat) : Char :=
  if u < 10 then Char.ofNat (u + 48)
  else if uppercase then Char.ofNat (u - 10 + 65)
  else Char.ofNat (u - 10 + 97)

/-- Nibble value of a hex digit character, either case; `none` otherwise. -/
def hexCharValue (c : Char) : Option Nat :=
  if 48 ≤ c.toNat ∧ c.toNat ≤ 57 then some (c.toNat - 48)
  else if 97 ≤ c.toNat ∧ c.toNat ≤ 102 then some (c.toNat - 87)
  else if 65 ≤ c.toNat ∧ c.toNat ≤ 70 then some (c.toNat - 55)
  else none

/-- Modelled from the spec: `bit_array_to_hex` over the whole vector writes
one character per nibble, 4 bits per character, bits `[4i, 4i+4)` in
character `i`, the final nibble zero-padded. -/
def bit_array_to_hex (v : BIT_ARRAY) (uppercase : Bool) : List Char :=
  (chunksOfNat 16 ((v.num_of_bits + 3) / 4) v.data).map (nibbleToChar uppercase)

/-- The nibble values of the maximal hex-digit prefix of a string. -/
def hexNibblesOf (str : List Char) : List Nat :=
  (str.takeWhile (fun c => (hexCharValue c).isSome)).map
    (fun c => (hexCharValue c).getD 0)

/-- Modelled from the spec: `bit_array_from_hex` (at offset 0 into a fresh
array, as the round-trip property uses it) parses the maximal prefix of hex
digits, 4 bits per character, and rounds the loaded length up to a multiple
of 8 bits. -/
def bit_array_from_hex (str : List Char) : BIT_ARRAY :=
  ⟨8 * (((hexNibblesOf str).length + 1) / 2), natOfChunks 16 (hexNibblesOf str)⟩

/-!
## Reachable states
-/

/-- Modelled from the spec: the vector states reachable through the public
API — created by `bit_array_create` (zeroed) and closed under the modelled
mutating operations. -/
inductive Reachable : BIT_ARRAY → Prop
  | create (nbits : Nat) : Reachable (bit_array_create nbits)
  | toggle_all (v : BIT_ARRAY) : Reachable v → Reachable (bit_array_toggle_all v)
  | not_dest (src : BIT_ARRAY) : Reachable src → Reachable (bit_array_not src)
  | shift_left (v : BIT_ARRAY) (d : Nat) (fill : Bool) :
      Reachable v → Reachable (bit_array_shift_left v d fill)
  | random (v : BIT_ARRAY) (r : Nat) : Reachable v → Reachable (bit_array_random v r)
  | and_dest (a b : BIT_ARRAY) : Reachable a → Reachable b →
      Reachable (bit_array_and a b)
  | or_dest (a b : BIT_ARRAY) : Reachable a → Reachable b →
      Reachable (bit_array_or a b)
  | xor_dest (a b : BIT_ARRAY) : Reachable a → Reachable b →
      Reachable (bit_array_xor a b)
  | subtract (v : BIT_ARRAY) (x : Nat) : x < 2 ^ word_size →
      Reachable v → Reachable (bit_array_subtract v x).2
  | interleave (a b : BIT_ARRAY) : Reachable a → Reachable b →
      Reachable (bit_array_interleave a b)
  | next_permutation (v : BIT_ARRAY) : Reachable v →
      Reachable (bit_array_next_permutation v)
  | from_hex (str : List Char) : Reachable (bit_array_from_hex str)
  | load (bytes : List Nat) (v : BIT_ARRAY) :
      bit_array_load bytes = some v → Reachable v

/-!
## Bridging lemmas: values, bits, popcount
-/

theorem foldr_pow_add (l : List Nat) (c : Nat) :
    l.foldr (fun i acc => 2 ^ i + acc) c = l.foldr (fun i acc => 2 ^ i + acc) 0 + c := by
  induction l with
  | nil => simp
  | cons a l ih => simp [List.foldr_cons, ih]; omega

theorem testBit_iff_div_mod (x i : Nat) : x.testBit i = true ↔ x / 2 ^ i % 2 = 1 := by
  rw [Nat.testBit_to_div_mod]; simp

theorem testBit_zero_iff (x : Nat) : x.testBit 0 = true ↔ x % 2 = 1 := by
  rw [Nat.testBit_zero]; simp

/-- The sum of `2 ^ i` over the set bits `i < m` of `x` is `x % 2 ^ m`. -/
theorem bitSum_range (m x : Nat) :
    ((List.range m).filter (fun i => x.testBit i)).foldr (fun i acc => 2 ^ i + acc) 0
      = x % 2 ^ m := by
  induction m with
  | zero => simp [Nat.mod_one]
  | succ m ih =>
    rw [List.range_succ, List.filter_append, List.foldr_append]
    have hmod : x % 2 ^ (m + 1) = x % 2 ^ m + 2 ^ m * (x / 2 ^ m % 2) := Nat.mod_pow_succ
    by_cases h : x.testBit m
    · have h1 : x / 2 ^ m % 2 = 1 := (testBit_iff_div_mod x m).mp h
      have hfilter : List.filter (fun i => x.testBit i) [m] = [m] := by simp [h]
      rw [hfilter]
      simp only [List.foldr_cons, List.foldr_nil]
      rw [foldr_pow_add, ih, hmod, h1]
      omega
    · have h1 : x / 2 ^ m % 2 = 0 := by
        have := mt (testBit_iff_div_mod x m).mpr h
        omega
      have hfilter : List.filter (fun i => x.testBit i) [m] = [] := by simp [h]
      rw [hfilter]
      simp only [List.foldr_nil]
      rw [ih, hmod, h1]
      omega

theorem bitValue_eq_mod (v : BIT_ARRAY) : bitValue v = v.data % 2 ^ v.num_of_bits :=
  bitSum_range v.num_of_bits v.data

theorem bitValue_eq_data (v : BIT_ARRAY) (h : tailInvariant v) : bitValue v = v.data := by
  rw [bitValue_eq_mod, Nat.mod_eq_of_lt h]

theorem testBit_false_of_tailInvariant (v : BIT_ARRAY) (h : tailInvariant v)
    (i : Nat) (hi : v.num_of_bits ≤ i) : v.data.testBit i = false := by
  refine Nat.testBit_lt_two_pow (lt_of_lt_of_le h ?_)
  exact Nat.pow_le_pow_right (by norm_num) hi

theorem zeroExtBit_eq_testBit (v : BIT_ARRAY) (h : tailInvariant v) (i : Nat) :
    zeroExtBit v i = v.data.testBit i := by
  unfold zeroExtBit bit_array_get_bit
  by_cases hi : i < v.num_of_bits
  · simp [hi]
  · simp [hi, testBit_false_of_tailInvariant v h i (by omega)]

theorem popcount_le_of_lt_two_pow (m : Nat) :
    ∀ x, x < 2 ^ m → popcount x ≤ m := by
  induction m with
  | zero => intro x hx; interval_cases x; simp [popcount_zero]
  | succ m ih =>
    intro x hx
    rw [popcount_rec]
    have hdiv : x / 2 < 2 ^ m := by
      have h2 : 2 ^ (m + 1) = 2 * 2 ^ m := by ring
      omega
    have := ih (x / 2) hdiv
    omega

theorem popcount_two_pow_sub_one (k : Nat) : popcount (2 ^ k - 1) = k := by
  induction k with
  | zero => simp [popcount_zero]
  | succ k ih =>
    have h2 : 2 ^ (k + 1) = 2 * 2 ^ k := by ring
    have hpos : 0 < 2 ^ k := Nat.pos_pow_of_pos _ (by norm_num)
    rw [popcount_rec]
    have hmod : (2 ^ (k + 1) - 1) % 2 = 1 := by omega
    have hdiv : (2 ^ (k + 1) - 1) / 2 = 2 ^ k - 1 := by omega
    rw [hmod, hdiv, ih]
    omega

/-- `2 ^ k - 1` is the least natural number with popcount `k`. -/
theorem two_pow_sub_one_le_of_popcount (w : Nat) :
    ∀ k, popcount w = k → 2 ^ k - 1 ≤ w := by
  induction w using Nat.strong_induction_on with
  | _ w ih =>
    intro k hk
    rcases eq_or_ne w 0 with h0 | h0
    · subst h0; rw [popcount_zero] at hk; subst hk; simp
    · have hdiv : w / 2 < w := Nat.div_lt_self (Nat.pos_of_ne_zero h0) one_lt_two
      rw [popcount_eq w h0] at hk
      have hrec := ih (w / 2) hdiv (popcount (w / 2)) rfl
      have h2 : 2 * (w / 2) + w % 2 = w := by omega
      rcases Nat.mod_two_eq_zero_or_one w with hm | hm
      · have hk2 : k = popcount (w / 2) := by omega
        subst hk2
        have hpos : 0 < 2 ^ popcount (w / 2) := Nat.pos_pow_of_pos _ (by norm_num)
        omega
      · have hk2 : k = popcount (w / 2) + 1 := by omega
        subst hk2
        have hpow : 2 ^ (popcount (w / 2) + 1) = 2 * 2 ^ popcount (w / 2) := by ring
        omega

theorem popcount_two_pow_add (n : Nat) :
    ∀ u, u < 2 ^ n → popcount (2 ^ n + u) = popcount u + 1 := by
  induction n with
  | zero =>
    intro u hu
    interval_cases u
    simp only [pow_zero, Nat.add_zero]
    rw [popcount_rec 1]
    norm_num [popcount_zero]
  | succ n ih =>
    intro u hu
    have h2 : 2 ^ (n + 1) = 2 * 2 ^ n := by ring
    rw [popcount_rec (2 ^ (n + 1) + u)]
    have hmod : (2 ^ (n + 1) + u) % 2 = u % 2 := by omega
    have hdiv : (2 ^ (n + 1) + u) / 2 = 2 ^ n + u / 2 := by omega
    have hu2 : u / 2 < 2 ^ n := by omega
    rw [hmod, hdiv, ih (u / 2) hu2, popcount_rec u]
    omega

/-- For `x < 2 ^ m`, `popcount x` counts the set bits below index `m`. -/
theorem popcount_eq_card_setBits (m : Nat) :
    ∀ x, x < 2 ^ m →
      popcount x = ((List.range m).filter (fun i => x.testBit i)).length := by
  induction m with
  | zero => intro x hx; interval_cases x; simp [popcount_zero]
  | succ m ih =>
    intro x hx
    rw [List.range_succ_eq_map, List.filter_cons, List.filter_map]
    have hcomp : ((fun i => x.testBit i) ∘ Nat.succ) = fun i => (x / 2).testBit i := by
      funext i
      simp [Function.comp, Nat.testBit_succ]
    rw [hcomp]
    have hdiv : x / 2 < 2 ^ m := by
      have h2 : 2 ^ (m + 1) = 2 * 2 ^ m := by ring
      omega
    have hIH := ih (x / 2) hdiv
    rw [popcount_rec x]
    by_cases h0 : x.testBit 0
    · have hm1 : x % 2 = 1 := (testBit_zero_iff x).mp h0
      simp only [h0, if_true, List.length_cons, List.length_map]
      rw [hm1, ← hIH]
      omega
    · have hm0 : x % 2 = 0 := by
        have := mt (testBit_zero_iff x).mpr h0
        omega
      have hb : x.testBit 0 = false := by
        cases hbit : x.testBit 0
        · rfl
        · exact absurd hbit h0
      simp only [hb, Bool.false_eq_true, if_false, List.length_map]
      rw [hm0, ← hIH]
      omega

/-!
## Bits of the logic operations and of interleave
-/

theorem zeroExtBit_eq_testBit_mod (v : BIT_ARRAY) (i : Nat) :
    zeroExtBit v i = (v.data % 2 ^ v.num_of_bits).testBit i := by
  rw [Nat.testBit_mod_two_pow]
  rfl

theorem interleaveBits_lt (n : Nat) :
    ∀ a b, interleaveBits n a b < 4 ^ n := by
  induction n with
  | zero => intro a b; simp [interleaveBits]
  | succ n ih =>
    intro a b
    have h1 : a % 2 ≤ 1 := by omega
    have h2 : b % 2 ≤ 1 := by omega
    have h3 : interleaveBits n (a / 2) (b / 2) < 4 ^ n := ih (a / 2) (b / 2)
    have h4 : 4 ^ (n + 1) = 4 * 4 ^ n := by ring
    simp only [interleaveBits]
    omega

theorem interleaveBits_testBit_even (n : Nat) :
    ∀ a b k, k < n → (interleaveBits n a b).testBit (2 * k) = a.testBit k := by
  induction n with
  | zero => intro a b k hk; omega
  | succ n ih =>
    intro a b k hk
    rcases Nat.eq_zero_or_pos k with h0 | hpos
    · subst h0
      simp only [Nat.mul_zero, interleaveBits]
      have hm : (a % 2 + 2 * (b % 2) + 4 * interleaveBits n (a / 2) (b / 2)) % 2 = a % 2 := by
        omega
      rw [Nat.testBit_zero, Nat.testBit_zero, hm]
    · obtain ⟨k, rfl⟩ : ∃ m, k = m + 1 := ⟨k - 1, by omega⟩
      have hidx : 2 * (k + 1) = (2 * k + 1) + 1 := by ring
      simp only [interleaveBits, hidx]
      rw [← Nat.testBit_div_two, ← Nat.testBit_div_two]
      have hdiv : a % 2 + 2 * (b % 2) + 4 * interleaveBits n (a / 2) (b / 2) =
          (interleaveBits n (a / 2) (b / 2)) * 2 * 2 + (a % 2 + 2 * (b % 2)) := by ring
      have h4 : (a % 2 + 2 * (b % 2) + 4 * interleaveBits n (a / 2) (b / 2)) / 2 / 2 =
          interleaveBits n (a / 2) (b / 2) := by omega
      rw [h4, ih (a / 2) (b / 2) k (by omega), Nat.testBit_div_two]

theorem interleaveBits_testBit_odd (n : Nat) :
    ∀ a b k, k < n → (interleaveBits n a b).testBit (2 * k + 1) = b.testBit k := by
  induction n with
  | zero => intro a b k hk; omega
  | succ n ih =>
    intro a b k hk
    rcases Nat.eq_zero_or_pos k with h0 | hpos
    · subst h0
      simp only [Nat.mul_zero, Nat.zero_add, interleaveBits]
      rw [← Nat.testBit_div_two]
      have hm : (a % 2 + 2 * (b % 2) + 4 * interleaveBits n (a / 2) (b / 2)) / 2 =
          b % 2 + 2 * interleaveBits n (a / 2) (b / 2) := by omega
      rw [hm, Nat.testBit_zero, Nat.testBit_zero]
      have : (b % 2 + 2 * interleaveBits n (a / 2) (b / 2)) % 2 = b % 2 := by omega
      rw [this]
    · obtain ⟨k, rfl⟩ : ∃ m, k = m + 1 := ⟨k - 1, by omega⟩
      have hidx : 2 * (k + 1) + 1 = ((2 * k + 1) + 1) + 1 := by ring
      simp only [interleaveBits, hidx]
      rw [← Nat.testBit_div_two, ← Nat.testBit_div_two]
      have h4 : (a % 2 + 2 * (b % 2) + 4 * interleaveBits n (a / 2) (b / 2)) / 2 / 2 =
          interleaveBits n (a / 2) (b / 2) := by omega
      rw [h4, ih (a / 2) (b / 2) k (by omega), Nat.testBit_div_two]

/-!
## Claim theorems
-/

/-- C9: on the 8-bit vector with bits {0,2,4} set (value 21), the number of
set bits is 3, the parity is 1, the first set bit is at index 0, the last at
index 4, and the LSB-first comparison against the 8-bit vector with bits
{1,3} set (value 10) returns 1. -/
theorem claim_C9_concrete_scalar_queries :
    bit_array_num_bits_set ⟨8, 21⟩ = 3 ∧
    bit_array_parity ⟨8, 21⟩ = 1 ∧
    bit_array_find_first_set_bit ⟨8, 21⟩ = some 0 ∧
    bit_array_find_last_set_bit ⟨8, 21⟩ = some 4 ∧
    bit_array_cmp ⟨8, 21⟩ ⟨8, 10⟩ = 1 := by
  refine ⟨by decide, by decide, by decide, by decide, by decide⟩

/-- C10: for every vector, `bit_array_num_bits_cleared` equals the length
minus `bit_array_num_bits_set` (both queries are read-only: they are pure
functions of the vector). -/
theorem claim_C10_cleared_eq_length_sub_set (v : BIT_ARRAY) (h : tailInvariant v) :
    bit_array_num_bits_cleared v = bit_array_length v - bit_array_num_bits_set v := by
  unfold bit_array_num_bits_cleared bit_array_length bit_array_num_bits_set
  rw [popcount_eq_card_setBits v.num_of_bits v.data h]
  have hsplit := List.length_eq_length_filter_add
    (l := List.range v.num_of_bits) (fun i => v.data.testBit i)
  have hlen : (List.range v.num_of_bits).length = v.num_of_bits := List.length_range _
  omega

theorem claim_C10_witness :
    bit_array_num_bits_cleared ⟨8, 21⟩ =
      bit_array_length ⟨8, 21⟩ - bit_array_num_bits_set ⟨8, 21⟩ :=
  claim_C10_cleared_eq_length_sub_set ⟨8, 21⟩ (by decide)

/-- C2: `and`/`or`/`xor` of two sources of possibly different lengths give a
destination whose length is the maximum of the two source lengths and whose
bit `i` is the boolean operation applied to bit `i` of each source, sources
read as zero-extended beyond their own lengths. -/
theorem claim_C2_logic_ops_zero_extend (src1 src2 : BIT_ARRAY)
    (h1 : tailInvariant src1) (h2 : tailInvariant src2) :
    (bit_array_and src1 src2).num_of_bits = max src1.num_of_bits src2.num_of_bits ∧
    (bit_array_or src1 src2).num_of_bits = max src1.num_of_bits src2.num_of_bits ∧
    (bit_array_xor src1 src2).num_of_bits = max src1.num_of_bits src2.num_of_bits ∧
    (∀ i, bit_array_get_bit (bit_array_and src1 src2) i =
      (zeroExtBit src1 i && zeroExtBit src2 i)) ∧
    (∀ i, bit_array_get_bit (bit_array_or src1 src2) i =
      (zeroExtBit src1 i || zeroExtBit src2 i)) ∧
    (∀ i, bit_array_get_bit (bit_array_xor src1 src2) i =
      (zeroExtBit src1 i ^^ zeroExtBit src2 i)) := by
  refine ⟨rfl, rfl, rfl, ?_, ?_, ?_⟩
  · intro i
    show (src1.data &&& src2.data).testBit i = _
    rw [Nat.testBit_and, zeroExtBit_eq_testBit src1 h1 i, zeroExtBit_eq_testBit src2 h2 i]
  · intro i
    show (src1.data ||| src2.data).testBit i = _
    rw [Nat.testBit_or, zeroExtBit_eq_testBit src1 h1 i, zeroExtBit_eq_testBit src2 h2 i]
  · intro i
    show (src1.data ^^^ src2.data).testBit i = _
    rw [Nat.testBit_xor, zeroExtBit_eq_testBit src1 h1 i, zeroExtBit_eq_testBit src2 h2 i]

theorem claim_C2_witness :
    tailInvariant ⟨3, 5⟩ ∧
      (bit_array_or ⟨3, 5⟩ ⟨5, 17⟩).num_of_bits = max 3 5 :=
  ⟨by decide, (claim_C2_logic_ops_zero_extend ⟨3, 5⟩ ⟨5, 17⟩ (by decide) (by decide)).2.1⟩

/-- C7: interleaving two equal-length sources yields a destination of twice
the length whose bit `2k` is bit `k` of the first source and whose bit
`2k+1` is bit `k` of the second; interleaving the 4-bit vectors 1111 and
0000 yields the 8-bit vector 10101010 (bit 0 printed first), i.e. packed
value 85. -/
theorem claim_C7_interleave (src1 src2 : BIT_ARRAY)
    (heq : src1.num_of_bits = src2.num_of_bits) :
    (bit_array_interleave src1 src2).num_of_bits = 2 * src1.num_of_bits ∧
    (∀ k, k < src1.num_of_bits →
      bit_array_get_bit (bit_array_interleave src1 src2) (2 * k) = bit_array_get_bit src1 k ∧
      bit_array_get_bit (bit_array_interleave src1 src2) (2 * k + 1) =
        bit_array_get_bit src2 k) ∧
    bit_array_interleave ⟨4, 15⟩ ⟨4, 0⟩ = ⟨8, 85⟩ := by
  refine ⟨rfl, ?_, by decide⟩
  intro k hk
  constructor
  · show (interleaveBits src1.num_of_bits src1.data src2.data).testBit (2 * k) = _
    rw [interleaveBits_testBit_even src1.num_of_bits src1.data src2.data k hk]
    rfl
  · show (interleaveBits src1.num_of_bits src1.data src2.data).testBit (2 * k + 1) = _
    rw [interleaveBits_testBit_odd src1.num_of_bits src1.data src2.data k hk]
    rfl

theorem claim_C7_witness :
    (bit_array_interleave ⟨4, 15⟩ ⟨4, 0⟩).num_of_bits = 2 * 4 :=
  (claim_C7_interleave ⟨4, 15⟩ ⟨4, 0⟩ rfl).1

/-!
## Comparison equivalence
-/

theorem lexCmpFrom_eq_zero_iff (a b : BIT_ARRAY) :
    ∀ rem i, lexCmpFrom a b i rem = 0 ↔
      ∀ j, i ≤ j → j < i + rem → zeroExtBit a j = zeroExtBit b j := by
  intro rem
  induction rem with
  | zero =>
    intro i
    simp only [lexCmpFrom]
    constructor
    · intro _ j h1 h2; omega
    · intro _; trivial
  | succ rem ih =>
    intro i
    simp only [lexCmpFrom]
    by_cases heq : zeroExtBit a i = zeroExtBit b i
    · rw [if_pos heq, ih (i + 1)]
      constructor
      · intro h j h1 h2
        rcases eq_or_lt_of_le h1 with h3 | h3
        · exact h3 ▸ heq
        · exact h j h3 (by omega)
      · intro h j h1 h2
        exact h j (by omega) (by omega)
    · rw [if_neg heq]
      constructor
      · intro h
        by_cases hb : zeroExtBit a i
        · rw [if_pos hb] at h; exact absurd h (by decide)
        · rw [if_neg hb] at h; exact absurd h (by decide)
      · intro h
        exact absurd (h i (le_refl i) (by omega)) heq

theorem cmp_eq_zero_iff (a b : BIT_ARRAY) :
    bit_array_cmp a b = 0 ↔ bitValue a = bitValue b := by
  unfold bit_array_cmp
  split_ifs with h1 h2 <;> simp <;> omega

/-- C5: the LSB-first comparison `bit_array_cmp` and the MSB-first comparison
`bit_array_other_endian_cmp` agree on equality: one returns 0 iff the other
does, for vectors of possibly different lengths. -/
theorem claim_C5_equality_coincides (a b : BIT_ARRAY) :
    bit_array_cmp a b = 0 ↔ bit_array_other_endian_cmp a b = 0 := by
  rw [cmp_eq_zero_iff, bit_array_other_endian_cmp, lexCmpFrom_eq_zero_iff]
  rw [bitValue_eq_mod, bitValue_eq_mod]
  constructor
  · intro h j _ _
    rw [zeroExtBit_eq_testBit_mod, zeroExtBit_eq_testBit_mod, h]
  · intro h
    refine Nat.eq_of_testBit_eq fun i => ?_
    by_cases hi : i < max a.num_of_bits b.num_of_bits
    · have := h i (by omega) (by omega)
      rw [zeroExtBit_eq_testBit_mod, zeroExtBit_eq_testBit_mod] at this
      exact this
    · have hha : (a.data % 2 ^ a.num_of_bits).testBit i = false := by
        refine Nat.testBit_lt_two_pow (lt_of_lt_of_le (Nat.mod_lt _ ?_) ?_)
        · exact Nat.pos_pow_of_pos _ (by norm_num)
        · exact Nat.pow_le_pow_right (by norm_num) (by omega)
      have hhb : (b.data % 2 ^ b.num_of_bits).testBit i = false := by
        refine Nat.testBit_lt_two_pow (lt_of_lt_of_le (Nat.mod_lt _ ?_) ?_)
        · exact Nat.pos_pow_of_pos _ (by norm_num)
        · exact Nat.pow_le_pow_right (by norm_num) (by omega)
      rw [hha, hhb]

/-!
## Correctness of the word-level borrow-propagating subtraction
-/

theorem subtractWords_correct :
    ∀ (ws : List Nat) (v : Nat), (∀ c ∈ ws, c < 2 ^ word_size) → v < 2 ^ word_size →
      (if v ≤ natOfChunks (2 ^ word_size) ws then
        ∃ ws2, subtractWords ws v = some ws2 ∧
          natOfChunks (2 ^ word_size) ws2 = natOfChunks (2 ^ word_size) ws - v ∧
          ws2.length = ws.length ∧ ∀ c ∈ ws2, c < 2 ^ word_size
      else subtractWords ws v = none) := by
  intro ws
  induction ws with
  | nil =>
    intro v _ _
    rcases Nat.eq_zero_or_pos v with h0 | hpos
    · subst h0
      rw [if_pos (by simp [natOfChunks])]
      exact ⟨[], by simp [subtractWords], by simp [natOfChunks], rfl, by simp⟩
    · rw [if_neg (by simp [natOfChunks]; omega)]
      simp [subtractWords]
      omega
  | cons w ws ih =>
    intro v hc hv
    have hw : w < 2 ^ word_size := hc w (by simp)
    have hws : ∀ c ∈ ws, c < 2 ^ word_size := fun c hx => hc c (by simp [hx])
    have hBpos : 0 < 2 ^ word_size := Nat.pos_pow_of_pos _ (by norm_num)
    by_cases hvw : v ≤ w
    · have hcond : v ≤ natOfChunks (2 ^ word_size) (w :: ws) := by
        show v ≤ w + 2 ^ word_size * natOfChunks (2 ^ word_size) ws
        omega
      rw [if_pos hcond]
      refine ⟨(w - v) :: ws, by simp [subtractWords, hvw], ?_, rfl, ?_⟩
      · show w - v + 2 ^ word_size * natOfChunks (2 ^ word_size) ws =
          w + 2 ^ word_size * natOfChunks (2 ^ word_size) ws - v
        omega
      · intro c hcm
        rcases List.mem_cons.mp hcm with h | h
        · subst h; omega
        · exact hws c h
    · have hiff : 1 ≤ natOfChunks (2 ^ word_size) ws ↔
          2 ^ word_size ≤ 2 ^ word_size * natOfChunks (2 ^ word_size) ws := by
        constructor
        · intro h
          calc 2 ^ word_size = 2 ^ word_size * 1 := by ring
            _ ≤ 2 ^ word_size * natOfChunks (2 ^ word_size) ws := Nat.mul_le_mul_left _ h
        · intro h
          by_contra h0
          have : natOfChunks (2 ^ word_size) ws = 0 := by omega
          rw [this, Nat.mul_zero] at h
          omega
      have hrec := ih 1 hws (by omega)
      by_cases hR : 1 ≤ natOfChunks (2 ^ word_size) ws
      · rw [if_pos hR] at hrec
        obtain ⟨ws2, hsub, hval, hlen, hbound⟩ := hrec
        have hY : 2 ^ word_size ≤ 2 ^ word_size * natOfChunks (2 ^ word_size) ws :=
          hiff.mp hR
        have hmul : 2 ^ word_size * (natOfChunks (2 ^ word_size) ws - 1) =
            2 ^ word_size * natOfChunks (2 ^ word_size) ws - 2 ^ word_size :=
          Nat.mul_sub_one _ _
        have hcond : v ≤ natOfChunks (2 ^ word_size) (w :: ws) := by
          show v ≤ w + 2 ^ word_size * natOfChunks (2 ^ word_size) ws
          omega
        rw [if_pos hcond]
        refine ⟨(w + 2 ^ word_size - v) :: ws2, ?_, ?_, by simp [hlen], ?_⟩
        · simp only [subtractWords, if_neg hvw, hsub]
        · show w + 2 ^ word_size - v + 2 ^ word_size * natOfChunks (2 ^ word_size) ws2 =
            w + 2 ^ word_size * natOfChunks (2 ^ word_size) ws - v
          rw [hval, hmul]
          omega
        · intro c hcm
          rcases List.mem_cons.mp hcm with h | h
          · subst h; omega
          · exact hbound c h
      · rw [if_neg hR] at hrec
        have hR0 : natOfChunks (2 ^ word_size) ws = 0 := by omega
        have hcond : ¬ v ≤ natOfChunks (2 ^ word_size) (w :: ws) := by
          show ¬ v ≤ w + 2 ^ word_size * natOfChunks (2 ^ word_size) ws
          rw [hR0, Nat.mul_zero]
          omega
        rw [if_neg hcond]
        simp only [subtractWords, if_neg hvw, hrec]

/-- C3: subtracting a machine-word value `x` from vector `v` fails with
result 0 and leaves `v` completely unchanged when `x` exceeds the vector's
LSB-first numeric value; otherwise it succeeds with result 1, keeps the
length, and the vector afterwards holds the old value minus `x`. -/
theorem claim_C3_subtract_fail_or_success (v : BIT_ARRAY) (x : Nat)
    (hinv : tailInvariant v) (hx : x < 2 ^ word_size) :
    (bitValue v < x → bit_array_subtract v x = (0, v)) ∧
    (x ≤ bitValue v →
      (bit_array_subtract v x).1 = 1 ∧
      (bit_array_subtract v x).2.num_of_bits = v.num_of_bits ∧
      bitValue (bit_array_subtract v x).2 = bitValue v - x) := by
  have hBpos : 0 < 2 ^ word_size := Nat.pos_pow_of_pos _ (by norm_num)
  have hcap : v.num_of_bits ≤ word_size * nwords v.num_of_bits := by
    show v.num_of_bits ≤ 64 * ((v.num_of_bits + 64 - 1) / 64)
    omega
  have hdata : v.data < (2 ^ word_size) ^ nwords v.num_of_bits := by
    rw [← pow_mul]
    exact lt_of_lt_of_le hinv (Nat.pow_le_pow_right (by norm_num) hcap)
  have hchunks := chunksOfNat_lt (2 ^ word_size) (nwords v.num_of_bits) v.data hBpos
  have hval : natOfChunks (2 ^ word_size)
      (chunksOfNat (2 ^ word_size) (nwords v.num_of_bits) v.data) = v.data :=
    natOfChunks_chunksOfNat _ _ _ hdata
  have hmain := subtractWords_correct
    (chunksOfNat (2 ^ word_size) (nwords v.num_of_bits) v.data) x hchunks hx
  rw [hval] at hmain
  have hbv : bitValue v = v.data := bitValue_eq_data v hinv
  constructor
  · intro hlt
    rw [hbv] at hlt
    rw [if_neg (by omega)] at hmain
    unfold bit_array_subtract
    rw [hmain]
  · intro hle
    rw [hbv] at hle
    rw [if_pos hle] at hmain
    obtain ⟨ws2, hsub, hval2, hlen2, hb2⟩ := hmain
    unfold bit_array_subtract
    rw [hsub]
    refine ⟨rfl, rfl, ?_⟩
    have hinv2 : v.data < 2 ^ v.num_of_bits := hinv
    have hres_inv : natOfChunks (2 ^ word_size) ws2 < 2 ^ v.num_of_bits := by
      rw [hval2]; omega
    have hbv2 := bitValue_eq_data ⟨v.num_of_bits, natOfChunks (2 ^ word_size) ws2⟩ hres_inv
    rw [hbv2, hval2, hbv]

theorem claim_C3_witness :
    bit_array_subtract ⟨8, 21⟩ 30 = (0, ⟨8, 21⟩) :=
  (claim_C3_subtract_fail_or_success ⟨8, 21⟩ 30 (by decide) (by decide)).1 (by decide)

/-- C4: saving a vector (8-byte bit-length header followed by
`ceil(bits/8)` packed data bytes) and loading the bytes back succeeds and
reproduces the vector exactly, length and every bit, including zero-length
and non-multiple-of-8 lengths. -/
theorem claim_C4_save_load_roundtrip (v : BIT_ARRAY)
    (hinv : tailInvariant v) (hlen : v.num_of_bits < 2 ^ 64) :
    bit_array_load (bit_array_save v) = some v := by
  have hinv2 : v.data < 2 ^ v.num_of_bits := hinv
  have h8 : (chunksOfNat 256 8 v.num_of_bits).length = 8 := chunksOfNat_length _ _ _
  have hd : (chunksOfNat 256 ((v.num_of_bits + 7) / 8) v.data).length =
      (v.num_of_bits + 7) / 8 := chunksOfNat_length _ _ _
  have hlen1 : (chunksOfNat 256 8 v.num_of_bits ++
      chunksOfNat 256 ((v.num_of_bits + 7) / 8) v.data).length =
      8 + (v.num_of_bits + 7) / 8 := by
    rw [List.length_append, h8, hd]
  have htake : (chunksOfNat 256 8 v.num_of_bits ++
      chunksOfNat 256 ((v.num_of_bits + 7) / 8) v.data).take 8 =
      chunksOfNat 256 8 v.num_of_bits := by
    rw [← h8]
    exact List.take_left _ _
  have hdrop : (chunksOfNat 256 8 v.num_of_bits ++
      chunksOfNat 256 ((v.num_of_bits + 7) / 8) v.data).drop 8 =
      chunksOfNat 256 ((v.num_of_bits + 7) / 8) v.data := by
    rw [← h8]
    exact List.drop_left _ _
  have hn : natOfChunks 256 (chunksOfNat 256 8 v.num_of_bits) = v.num_of_bits := by
    refine natOfChunks_chunksOfNat _ _ _ ?_
    have h256 : (256 : Nat) ^ 8 = 2 ^ 64 := by norm_num
    omega
  have hdata_lt : v.data < 256 ^ ((v.num_of_bits + 7) / 8) := by
    have h256 : (256 : Nat) ^ ((v.num_of_bits + 7) / 8) =
        2 ^ (8 * ((v.num_of_bits + 7) / 8)) := by
      rw [show (256 : Nat) = 2 ^ 8 from by norm_num, ← pow_mul]
    rw [h256]
    refine lt_of_lt_of_le hinv2 (Nat.pow_le_pow_right (by norm_num) ?_)
    omega
  have hvdata : natOfChunks 256 (chunksOfNat 256 ((v.num_of_bits + 7) / 8) v.data) =
      v.data := natOfChunks_chunksOfNat _ _ _ hdata_lt
  unfold bit_array_load bit_array_save
  rw [if_neg (by rw [hlen1]; omega)]
  rw [htake, hn]
  rw [if_neg (by rw [hlen1]; omega)]
  have htake2 : List.take ((v.num_of_bits + 7) / 8)
      (chunksOfNat 256 ((v.num_of_bits + 7) / 8) v.data) =
      chunksOfNat 256 ((v.num_of_bits + 7) / 8) v.data :=
    List.take_of_length_le (by rw [hd])
  rw [hdrop, htake2, hvdata]
  show some ⟨v.num_of_bits, v.data &&& bitmask v.num_of_bits⟩ = some v
  unfold bitmask
  rw [Nat.and_pow_two_sub_one_eq_mod, Nat.mod_eq_of_lt hinv2]

theorem claim_C4_witness :
    bit_array_load (bit_array_save ⟨13, 5000⟩) = some ⟨13, 5000⟩ :=
  claim_C4_save_load_roundtrip ⟨13, 5000⟩ (by decide) (by decide)

/-!
## Hex round trip
-/

theorem hexCharValue_nibbleToChar :
    ∀ u, u < 16 → ∀ b, hexCharValue (nibbleToChar b u) = some u := by
  decide

theorem hexNibblesOf_to_hex (v : BIT_ARRAY) (uppercase : Bool) :
    hexNibblesOf (bit_array_to_hex v uppercase) =
      chunksOfNat 16 ((v.num_of_bits + 3) / 4) v.data := by
  unfold hexNibblesOf bit_array_to_hex
  have hlt := chunksOfNat_lt 16 ((v.num_of_bits + 3) / 4) v.data (by norm_num)
  have hvalid : ∀ c ∈ (chunksOfNat 16 ((v.num_of_bits + 3) / 4) v.data).map
      (nibbleToChar uppercase), ((hexCharValue c).isSome : Bool) := by
    intro c hc
    obtain ⟨u, hu, rfl⟩ := List.mem_map.mp hc
    rw [hexCharValue_nibbleToChar u (hlt u hu) uppercase]
    rfl
  rw [List.takeWhile_eq_self_iff.mpr hvalid, List.map_map]
  have : ∀ u ∈ chunksOfNat 16 ((v.num_of_bits + 3) / 4) v.data,
      ((fun c => (hexCharValue c).getD 0) ∘ nibbleToChar uppercase) u = id u := by
    intro u hu
    simp only [Function.comp, id]
    rw [hexCharValue_nibbleToChar u (hlt u hu) uppercase]
    rfl
  rw [List.map_congr_left this, List.map_id]

/-- C8: encoding a vector as hex and decoding the string back yields a
vector whose length is the original length rounded up to a multiple of 8,
whose first `length` bits match the original bit for bit, and whose added
bits are all zero. -/
theorem claim_C8_hex_roundtrip (v : BIT_ARRAY) (hinv : tailInvariant v)
    (uppercase : Bool) :
    (bit_array_from_hex (bit_array_to_hex v uppercase)).num_of_bits =
        8 * ((v.num_of_bits + 7) / 8) ∧
    (∀ i, i < v.num_of_bits →
      bit_array_get_bit (bit_array_from_hex (bit_array_to_hex v uppercase)) i =
        bit_array_get_bit v i) ∧
    (∀ i, v.num_of_bits ≤ i →
      bit_array_get_bit (bit_array_from_hex (bit_array_to_hex v uppercase)) i = false) := by
  have hinv2 : v.data < 2 ^ v.num_of_bits := hinv
  have hdata_lt : v.data < 16 ^ ((v.num_of_bits + 3) / 4) := by
    have h16 : (16 : Nat) ^ ((v.num_of_bits + 3) / 4) =
        2 ^ (4 * ((v.num_of_bits + 3) / 4)) := by
      rw [show (16 : Nat) = 2 ^ 4 from by norm_num, ← pow_mul]
    rw [h16]
    refine lt_of_lt_of_le hinv2 (Nat.pow_le_pow_right (by norm_num) ?_)
    omega
  have hchunks : natOfChunks 16 (chunksOfNat 16 ((v.num_of_bits + 3) / 4) v.data) =
      v.data := natOfChunks_chunksOfNat _ _ _ hdata_lt
  have hres : bit_array_from_hex (bit_array_to_hex v uppercase) =
      ⟨8 * ((v.num_of_bits + 7) / 8), v.data⟩ := by
    unfold bit_array_from_hex
    rw [hexNibblesOf_to_hex, hchunks, chunksOfNat_length]
    have harith : 8 * (((v.num_of_bits + 3) / 4 + 1) / 2) =
        8 * ((v.num_of_bits + 7) / 8) := by omega
    rw [harith]
  rw [hres]
  refine ⟨rfl, fun i _ => rfl, fun i hi => ?_⟩
  exact testBit_false_of_tailInvariant v hinv i hi

theorem claim_C8_witness :
    (bit_array_from_hex (bit_array_to_hex ⟨13, 5000⟩ true)).num_of_bits =
      8 * ((13 + 7) / 8) :=
  (claim_C8_hex_roundtrip ⟨13, 5000⟩ (by decide) true).1

/-!
## Tail invariant preservation
-/

theorem and_bitmask_lt (x n : Nat) : x &&& bitmask n < 2 ^ n := by
  unfold bitmask
  rw [Nat.and_pow_two_sub_one_eq_mod]
  exact Nat.mod_lt _ (Nat.pos_pow_of_pos _ (by norm_num))

/-- Functional specification of `bit_array_subtract`: on a tail-invariant
vector it either fails (value too large, vector returned unchanged) or
succeeds with the packed value decreased by `x`. -/
theorem bit_array_subtract_spec (v : BIT_ARRAY) (x : Nat)
    (hinv : tailInvariant v) (hx : x < 2 ^ word_size) :
    (v.data < x ∧ bit_array_subtract v x = (0, v)) ∨
    (x ≤ v.data ∧ bit_array_subtract v x = (1, ⟨v.num_of_bits, v.data - x⟩)) := by
  have hinv2 : v.data < 2 ^ v.num_of_bits := hinv
  have hBpos : 0 < 2 ^ word_size := Nat.pos_pow_of_pos _ (by norm_num)
  have hcap : v.num_of_bits ≤ word_size * nwords v.num_of_bits := by
    show v.num_of_bits ≤ 64 * ((v.num_of_bits + 64 - 1) / 64)
    omega
  have hdata : v.data < (2 ^ word_size) ^ nwords v.num_of_bits := by
    rw [← pow_mul]
    exact lt_of_lt_of_le hinv2 (Nat.pow_le_pow_right (by norm_num) hcap)
  have hchunks := chunksOfNat_lt (2 ^ word_size) (nwords v.num_of_bits) v.data hBpos
  have hval : natOfChunks (2 ^ word_size)
      (chunksOfNat (2 ^ word_size) (nwords v.num_of_bits) v.data) = v.data :=
    natOfChunks_chunksOfNat _ _ _ hdata
  have hmain := subtractWords_correct
    (chunksOfNat (2 ^ word_size) (nwords v.num_of_bits) v.data) x hchunks hx
  rw [hval] at hmain
  by_cases hle : x ≤ v.data
  · right
    refine ⟨hle, ?_⟩
    rw [if_pos hle] at hmain
    obtain ⟨ws2, hsub, hval2, _, _⟩ := hmain
    unfold bit_array_subtract
    rw [hsub]
    show (1, (⟨v.num_of_bits, natOfChunks (2 ^ word_size) ws2⟩ : BIT_ARRAY)) = _
    rw [hval2]
  · left
    refine ⟨by omega, ?_⟩
    rw [if_neg hle] at hmain
    unfold bit_array_subtract
    rw [hmain]

theorem tailInvariant_subtract (v : BIT_ARRAY) (x : Nat)
    (hinv : tailInvariant v) (hx : x < 2 ^ word_size) :
    tailInvariant (bit_array_subtract v x).2 := by
  have hinv2 : v.data < 2 ^ v.num_of_bits := hinv
  rcases bit_array_subtract_spec v x hinv hx with ⟨_, heq⟩ | ⟨_, heq⟩ <;> rw [heq]
  · exact hinv
  · show v.data - x < 2 ^ v.num_of_bits
    omega

theorem tailInvariant_next_permutation (v : BIT_ARRAY) (hinv : tailInvariant v) :
    tailInvariant (bit_array_next_permutation v) := by
  unfold bit_array_next_permutation
  cases hfind : (List.range (2 ^ v.num_of_bits)).find?
      (fun w => popcount w == popcount v.data && v.data < w) with
  | none =>
    show 2 ^ popcount v.data - 1 < 2 ^ v.num_of_bits
    have hk : popcount v.data ≤ v.num_of_bits :=
      popcount_le_of_lt_two_pow _ v.data hinv
    have hle : 2 ^ popcount v.data ≤ 2 ^ v.num_of_bits :=
      Nat.pow_le_pow_right (by norm_num) hk
    have hpos : 0 < 2 ^ popcount v.data := Nat.pos_pow_of_pos _ (by norm_num)
    omega
  | some w =>
    show w < 2 ^ v.num_of_bits
    exact List.mem_range.mp (List.mem_of_find?_eq_some hfind)

theorem hexCharValue_getD_lt (c : Char) : (hexCharValue c).getD 0 < 16 := by
  unfold hexCharValue
  split_ifs <;> simp [Option.getD] <;> omega

theorem tailInvariant_from_hex (str : List Char) :
    tailInvariant (bit_array_from_hex str) := by
  show natOfChunks 16 (hexNibblesOf str) <
    2 ^ (8 * (((hexNibblesOf str).length + 1) / 2))
  have hbound : ∀ c ∈ hexNibblesOf str, c < 16 := by
    intro c hc
    unfold hexNibblesOf at hc
    obtain ⟨ch, _, rfl⟩ := List.mem_map.mp hc
    exact hexCharValue_getD_lt ch
  have h1 := natOfChunks_lt 16 (hexNibblesOf str) hbound
  have h2 : (16 : Nat) ^ (hexNibblesOf str).length =
      2 ^ (4 * (hexNibblesOf str).length) := by
    rw [show (16 : Nat) = 2 ^ 4 from by norm_num, ← pow_mul]
  have h3 : 4 * (hexNibblesOf str).length ≤
      8 * (((hexNibblesOf str).length + 1) / 2) := by omega
  calc natOfChunks 16 (hexNibblesOf str)
      < 16 ^ (hexNibblesOf str).length := h1
    _ = 2 ^ (4 * (hexNibblesOf str).length) := h2
    _ ≤ 2 ^ (8 * (((hexNibblesOf str).length + 1) / 2)) :=
        Nat.pow_le_pow_right (by norm_num) h3

theorem tailInvariant_load (bytes : List Nat) (v : BIT_ARRAY)
    (h : bit_array_load bytes = some v) : tailInvariant v := by
  unfold bit_array_load at h
  by_cases h1 : bytes.length < 8
  · rw [if_pos h1] at h
    exact absurd h (by simp)
  · rw [if_neg h1] at h
    by_cases h2 : bytes.length - 8 < (natOfChunks 256 (bytes.take 8) + 7) / 8
    · rw [if_pos h2] at h
      exact absurd h (by simp)
    · rw [if_neg h2] at h
      have h3 := Option.some.inj h
      rw [← h3]
      exact and_bitmask_lt _ _

/-- C1: the tail invariant — every stored bit of the last word at an index
beyond `length - 1` is zero — holds in every state reachable through the
public API (creation, toggle_all/not, shifts, random fill, and/or/xor,
subtract, interleave, next_permutation, hex parsing and file load). -/
theorem claim_C1_tail_invariant_reachable (v : BIT_ARRAY) (h : Reachable v) :
    tailInvariant v ∧ ∀ i, v.num_of_bits ≤ i → v.data.testBit i = false := by
  have hinv : tailInvariant v := by
    induction h with
    | create nbits =>
      show (0 : Nat) < 2 ^ nbits
      exact Nat.pos_pow_of_pos _ (by norm_num)
    | toggle_all w _ _ => exact and_bitmask_lt _ _
    | not_dest src _ _ => exact and_bitmask_lt _ _
    | shift_left w d fill _ _ => exact and_bitmask_lt _ _
    | random w r _ _ => exact and_bitmask_lt _ _
    | and_dest a b _ _ iha ihb =>
      show a.data &&& b.data < 2 ^ max a.num_of_bits b.num_of_bits
      exact Nat.and_lt_two_pow _
        (lt_of_lt_of_le ihb (Nat.pow_le_pow_right (by norm_num) (Nat.le_max_right _ _)))
    | or_dest a b _ _ iha ihb =>
      show a.data ||| b.data < 2 ^ max a.num_of_bits b.num_of_bits
      exact Nat.or_lt_two_pow
        (lt_of_lt_of_le iha (Nat.pow_le_pow_right (by norm_num) (Nat.le_max_left _ _)))
        (lt_of_lt_of_le ihb (Nat.pow_le_pow_right (by norm_num) (Nat.le_max_right _ _)))
    | xor_dest a b _ _ iha ihb =>
      show a.data ^^^ b.data < 2 ^ max a.num_of_bits b.num_of_bits
      exact Nat.xor_lt_two_pow
        (lt_of_lt_of_le iha (Nat.pow_le_pow_right (by norm_num) (Nat.le_max_left _ _)))
        (lt_of_lt_of_le ihb (Nat.pow_le_pow_right (by norm_num) (Nat.le_max_right _ _)))
    | subtract w x hx _ ih => exact tailInvariant_subtract w x ih hx
    | interleave a b _ _ iha ihb =>
      show interleaveBits a.num_of_bits a.data b.data < 2 ^ (2 * a.num_of_bits)
      have h4 := interleaveBits_lt a.num_of_bits a.data b.data
      rwa [show (4 : Nat) ^ a.num_of_bits = 2 ^ (2 * a.num_of_bits) from by
        rw [show (4 : Nat) = 2 ^ 2 from by norm_num, ← pow_mul]] at h4
    | next_permutation w _ ih => exact tailInvariant_next_permutation w ih
    | from_hex str => exact tailInvariant_from_hex str
    | load bytes w hload => exact tailInvariant_load bytes w hload
  exact ⟨hinv, testBit_false_of_tailInvariant v hinv⟩

theorem claim_C1_witness :
    tailInvariant (bit_array_toggle_all (bit_array_create 5)) ∧
      ∀ i, (bit_array_toggle_all (bit_array_create 5)).num_of_bits ≤ i →
        (bit_array_toggle_all (bit_array_create 5)).data.testBit i = false :=
  claim_C1_tail_invariant_reachable _
    (Reachable.toggle_all _ (Reachable.create 5))

/-!
## Next-permutation: enumeration of fixed-weight values
-/

theorem find?_filter_comm {α : Type} (l : List α) (p q : α → Bool) :
    (l.filter p).find? q = l.find? (fun x => p x && q x) := by
  induction l with
  | nil => rfl
  | cons a t ih =>
    by_cases hp : p a
    · by_cases hq : q a
      · rw [List.filter_cons_of_pos hp, List.find?_cons_of_pos _ hq,
          List.find?_cons_of_pos]
        simp [hp, hq]
      · rw [List.filter_cons_of_pos hp, List.find?_cons_of_neg _ hq,
          List.find?_cons_of_neg, ih]
        simp [hq]
    · rw [List.filter_cons_of_neg hp, List.find?_cons_of_neg, ih]
      simp [hp]

/-- The list of all `n`-bit values of population count `k`, in increasing
order. -/
def weightList (n k : Nat) : List Nat :=
  (List.range (2 ^ n)).filter (fun w => popcount w == k)

theorem weightList_sorted (n k : Nat) : (weightList n k).Pairwise (· < ·) :=
  (List.pairwise_lt_range (2 ^ n)).filter _

theorem mem_weightList_iff (n k w : Nat) :
    w ∈ weightList n k ↔ w < 2 ^ n ∧ popcount w = k := by
  unfold weightList
  rw [List.mem_filter, List.mem_range, beq_iff_eq]

/-- There are `n.choose k` values below `2 ^ n` with population count `k`. -/
theorem weightList_length (n : Nat) :
    ∀ k, (weightList n k).length = n.choose k := by
  induction n with
  | zero =>
    intro k
    rcases k with _ | k
    · decide
    · show ((List.range (2 ^ 0)).filter (fun w => popcount w == k + 1)).length =
        Nat.choose 0 (k + 1)
      have h1 : (List.range (2 ^ 0)).filter (fun w => popcount w == k + 1) = [] := by
        rw [List.filter_eq_nil_iff]
        intro a ha
        have : a = 0 := by
          have := List.mem_range.mp ha
          omega
        subst this
        rw [popcount_zero]
        simp
      rw [h1, Nat.choose_zero_succ]
      rfl
  | succ n ih =>
    intro k
    unfold weightList
    have h2 : 2 ^ (n + 1) = 2 ^ n + 2 ^ n := by ring
    rw [h2, List.range_add, List.filter_append, List.length_append,
      List.filter_map, List.length_map]
    have hcongr : ∀ u ∈ List.range (2 ^ n),
        ((fun w => popcount w == k) ∘ (fun x => 2 ^ n + x)) u =
          (fun u => popcount u + 1 == k) u := by
      intro u hu
      simp only [Function.comp]
      rw [popcount_two_pow_add n u (List.mem_range.mp hu)]
    rw [List.filter_congr hcongr]
    rcases k with _ | k
    · have hnil : (List.range (2 ^ n)).filter (fun u => popcount u + 1 == 0) = [] := by
        rw [List.filter_eq_nil_iff]
        intro a _
        simp
      rw [hnil]
      have := ih 0
      unfold weightList at this
      rw [this]
      simp [Nat.choose_zero_right]
    · have hcongr2 : ∀ u ∈ List.range (2 ^ n),
          (fun u => popcount u + 1 == k + 1) u = (fun u => popcount u == k) u := by
        intro u _
        show (popcount u + 1 == k + 1) = (popcount u == k)
        by_cases h : popcount u = k
        · subst h; simp
        · have h1 : popcount u + 1 ≠ k + 1 := by omega
          simp [h, h1]
      rw [List.filter_congr hcongr2]
      have ha := ih (k + 1)
      have hb := ih k
      unfold weightList at ha hb
      rw [ha, hb, Nat.choose_succ_succ]
      have hc : n.choose k.succ = n.choose (k + 1) := rfl
      omega

theorem next_permutation_eq_find (n k u : Nat) (hpc : popcount u = k) :
    bit_array_next_permutation ⟨n, u⟩ =
      match (weightList n k).find? (fun w => decide (u < w)) with
      | some w => ⟨n, w⟩
      | none => ⟨n, 2 ^ k - 1⟩ := by
  show (match (List.range (2 ^ n)).find?
      (fun w => popcount w == popcount u && decide (u < w)) with
    | some w => (⟨n, w⟩ : BIT_ARRAY)
    | none => ⟨n, 2 ^ popcount u - 1⟩) = _
  rw [hpc, ← find?_filter_comm (List.range (2 ^ n))
    (fun w => popcount w == k) (fun w => decide (u < w))]
  rfl

theorem next_permutation_step (n k : Nat) (as bs : List Nat) (u b : Nat)
    (hdec : weightList n k = as ++ u :: b :: bs) :
    bit_array_next_permutation ⟨n, u⟩ = ⟨n, b⟩ := by
  have hu_mem : u ∈ weightList n k := by rw [hdec]; simp
  have hpc : popcount u = k := ((mem_weightList_iff n k u).mp hu_mem).2
  have hsorted := weightList_sorted n k
  rw [hdec] at hsorted
  rw [next_permutation_eq_find n k u hpc, hdec, List.find?_append]
  have has : as.find? (fun w => decide (u < w)) = none := by
    rw [List.find?_eq_none]
    intro x hx
    have hxu : x < u := (List.pairwise_append.mp hsorted).2.2 x hx u (by simp)
    simp
    omega
  rw [has]
  have hub : u < b := by
    have h4 := (List.pairwise_append.mp hsorted).2.1
    exact (List.pairwise_cons.mp h4).1 b (by simp)
  have hfind2 : List.find? (fun w => decide (u < w)) (u :: b :: bs) = some b := by
    rw [List.find?_cons_of_neg _ (by simp)]
    exact List.find?_cons_of_pos _ (by simp [hub])
  rw [Option.none_or, hfind2]

theorem next_permutation_wrap (n k : Nat) (as : List Nat) (u : Nat)
    (hdec : weightList n k = as ++ [u]) :
    bit_array_next_permutation ⟨n, u⟩ = ⟨n, 2 ^ k - 1⟩ := by
  have hu_mem : u ∈ weightList n k := by rw [hdec]; simp
  have hpc : popcount u = k := ((mem_weightList_iff n k u).mp hu_mem).2
  have hsorted := weightList_sorted n k
  rw [hdec] at hsorted
  rw [next_permutation_eq_find n k u hpc, hdec]
  have hnone : (as ++ [u]).find? (fun w => decide (u < w)) = none := by
    rw [List.find?_eq_none]
    intro x hx
    rcases List.mem_append.mp hx with h | h
    · have hxu : x < u := (List.pairwise_append.mp hsorted).2.2 x h u (by simp)
      simp
      omega
    · simp at h
      subst h
      simp
  rw [hnone]

theorem weightList_head (n k : Nat) (hk : k ≤ n) (h0 : 0 < (weightList n k).length) :
    (weightList n k).get ⟨0, h0⟩ = 2 ^ k - 1 := by
  have hmem : 2 ^ k - 1 ∈ weightList n k := by
    rw [mem_weightList_iff]
    refine ⟨?_, popcount_two_pow_sub_one k⟩
    have h1 : 2 ^ k ≤ 2 ^ n := Nat.pow_le_pow_right (by norm_num) hk
    have h2 : 0 < 2 ^ k := Nat.pos_pow_of_pos _ (by norm_num)
    omega
  obtain ⟨⟨i, hi⟩, hget⟩ := List.mem_iff_get.mp hmem
  rcases Nat.eq_zero_or_pos i with h | h
  · subst h
    exact hget
  · exfalso
    have hlt := List.pairwise_iff_get.mp (weightList_sorted n k) ⟨0, h0⟩ ⟨i, hi⟩
      (by rw [Fin.mk_lt_mk]; omega)
    have hm := List.get_mem (weightList n k) 0 h0
    have hmin : 2 ^ k - 1 ≤ (weightList n k).get ⟨0, h0⟩ :=
      two_pow_sub_one_le_of_popcount _ k ((mem_weightList_iff n k _).mp hm).2
    rw [hget] at hlt
    omega

theorem list_decomp_succ {α : Type} (l : List α) (j : Nat) (hj : j + 1 < l.length) :
    l = l.take j ++ l.get ⟨j, by omega⟩ :: l.get ⟨j + 1, hj⟩ :: l.drop (j + 2) := by
  conv_lhs => rw [← List.take_append_drop j l]
  congr 1
  rw [List.drop_eq_get_cons (show j < l.length by omega)]
  congr 1
  rw [List.drop_eq_get_cons (show j + 1 < l.length from hj)]

theorem list_decomp_last {α : Type} (l : List α) (h0 : 0 < l.length) :
    l = l.take (l.length - 1) ++ [l.get ⟨l.length - 1, by omega⟩] := by
  conv_lhs => rw [← List.take_append_drop (l.length - 1) l]
  congr 1
  rw [List.drop_eq_get_cons (show l.length - 1 < l.length by omega)]
  congr 1
  rw [show l.length - 1 + 1 = l.length by omega, List.drop_length]

theorem bitValue_mk (n w : Nat) (h : w < 2 ^ n) : bitValue ⟨n, w⟩ = w :=
  bitValue_eq_data ⟨n, w⟩ h

theorem iterate_next_permutation (n k : Nat) (hk : k ≤ n) :
    ∀ j (hj : j < (weightList n k).length),
      bit_array_next_permutation^[j] ⟨n, 2 ^ k - 1⟩ =
        ⟨n, (weightList n k).get ⟨j, hj⟩⟩ := by
  intro j
  induction j with
  | zero =>
    intro hj
    show (⟨n, 2 ^ k - 1⟩ : BIT_ARRAY) = _
    rw [weightList_head n k hk hj]
  | succ j ih =>
    intro hj
    have hj0 : j < (weightList n k).length := by omega
    rw [Function.iterate_succ_apply', ih hj0]
    exact next_permutation_step n k ((weightList n k).take j)
      ((weightList n k).drop (j + 2)) _ _ (list_decomp_succ (weightList n k) j hj)

/-- C6: starting from the minimum arrangement of an `n`-bit vector with `k`
set bits (all set bits at the lowest indices, packed value `2 ^ k - 1`),
applying `bit_array_next_permutation` exactly `C(n, k)` times returns to the
minimum arrangement; each intermediate application strictly increases the
LSB-first numeric value; the arrangement before the final (wrapping) step is
the maximum one; and every application preserves the length and the number
of set bits. -/
theorem claim_C6_next_permutation_cycle (n k : Nat) (hk : k ≤ n) :
    (bit_array_next_permutation^[n.choose k] ⟨n, 2 ^ k - 1⟩ = ⟨n, 2 ^ k - 1⟩) ∧
    (∀ j, j + 1 < n.choose k →
      bitValue (bit_array_next_permutation^[j] ⟨n, 2 ^ k - 1⟩) <
        bitValue (bit_array_next_permutation^[j + 1] ⟨n, 2 ^ k - 1⟩)) ∧
    (∀ w, w < 2 ^ n → popcount w = k →
      w ≤ bitValue (bit_array_next_permutation^[n.choose k - 1] ⟨n, 2 ^ k - 1⟩)) ∧
    (∀ u : BIT_ARRAY,
      (bit_array_next_permutation u).num_of_bits = u.num_of_bits ∧
      popcount (bit_array_next_permutation u).data = popcount u.data) := by
  have hL : (weightList n k).length = n.choose k := weightList_length n k
  have hpos : 0 < (weightList n k).length := by
    rw [hL]
    exact Nat.choose_pos hk
  have hiter := iterate_next_permutation n k hk
  refine ⟨?_, ?_, ?_, ?_⟩
  · obtain ⟨t, ht⟩ : ∃ t, (weightList n k).length = t + 1 :=
      ⟨(weightList n k).length - 1, by omega⟩
    rw [← hL, ht, Function.iterate_succ_apply', hiter t (by omega)]
    have hfin : (⟨t, by omega⟩ : Fin (weightList n k).length) =
        ⟨(weightList n k).length - 1, by omega⟩ := by
      rw [Fin.mk_eq_mk]
      omega
    rw [hfin]
    exact next_permutation_wrap n k _ _ (list_decomp_last (weightList n k) hpos)
  · intro j hj
    have hj1 : j + 1 < (weightList n k).length := by omega
    rw [hiter j (by omega), hiter (j + 1) hj1]
    have hw1 : (weightList n k).get ⟨j, by omega⟩ < 2 ^ n :=
      ((mem_weightList_iff n k _).mp (List.get_mem _ _ _)).1
    have hw2 : (weightList n k).get ⟨j + 1, hj1⟩ < 2 ^ n :=
      ((mem_weightList_iff n k _).mp (List.get_mem _ _ _)).1
    rw [bitValue_mk _ _ hw1, bitValue_mk _ _ hw2]
    exact List.pairwise_iff_get.mp (weightList_sorted n k) _ _ (by rw [Fin.mk_lt_mk]; omega)
  · intro w hw hpc
    have hwmem : w ∈ weightList n k := (mem_weightList_iff n k w).mpr ⟨hw, hpc⟩
    obtain ⟨⟨i, hi⟩, hget⟩ := List.mem_iff_get.mp hwmem
    rw [← hL, hiter ((weightList n k).length - 1) (by omega), bitValue_mk _ _
      ((mem_weightList_iff n k _).mp (List.get_mem _ _ _)).1, ← hget]
    rcases eq_or_lt_of_le (show i ≤ (weightList n k).length - 1 by omega) with he | hlt
    · have hfin : (⟨i, hi⟩ : Fin (weightList n k).length) =
          ⟨(weightList n k).length - 1, by omega⟩ := by
        rw [Fin.mk_eq_mk]
        omega
      rw [hfin]
    · exact le_of_lt (List.pairwise_iff_get.mp (weightList_sorted n k) ⟨i, hi⟩
        ⟨(weightList n k).length - 1, by omega⟩ (by rw [Fin.mk_lt_mk]; omega))
  · intro u
    constructor
    · unfold bit_array_next_permutation
      cases hfind : (List.range (2 ^ u.num_of_bits)).find?
          (fun w => popcount w == popcount u.data && decide (u.data < w)) with
      | some w => rfl
      | none => rfl
    · unfold bit_array_next_permutation
      cases hfind : (List.range (2 ^ u.num_of_bits)).find?
          (fun w => popcount w == popcount u.data && decide (u.data < w)) with
      | some w =>
        show popcount w = popcount u.data
        have hp := List.find?_some hfind
        rw [Bool.and_eq_true] at hp
        exact beq_iff_eq.mp hp.1
      | none =>
        show popcount (2 ^ popcount u.data - 1) = popcount u.data
        exact popcount_two_pow_sub_one _

theorem claim_C6_witness :
    2 ≤ 4 ∧
      bit_array_next_permutation^[Nat.choose 4 2] ⟨4, 2 ^ 2 - 1⟩ = ⟨4, 2 ^ 2 - 1⟩ :=
  ⟨by decide, (claim_C6_next_permutation_cycle 4 2 (by decide)).1⟩
